import Mathlib

/-!
Verification of the `bigdick` append-only key-value storage engine
(`src/bigdick/dbase.py`) against its natural-language specification.

The engine is shallowly embedded: segment files are byte lists
(`List Nat`, one byte per entry, newline = 10), the index and cache are
association lists, timestamps are rationals, and the engine-wide lock is
an explicit boolean.  Wall-clock readings (`time.time()`) are passed in
as explicit rational parameters, one per call site, in call order.
-/

namespace BigDick

/-! ### Records and their line serialization

A record is the `DB_TUPLE(stamp, key, value)` of the source.  The source
serializes a record with `json.dumps` as a single line; we model this
with a concrete injective byte encoding (decimal digits, `-`, `/` for
the rational stamp, `,` separators, surrounding brackets) together with
its parser `loads`, satisfying `loads (serialize r) = some r` and
producing no newline byte. -/

structure DBTuple where
  stamp : ℚ
  key : Nat
  value : Nat
  deriving DecidableEq, Repr

/-- Decimal digit bytes, least significant first; structural fuel so
the definition reduces inside the kernel. -/
def encNatAux : Nat → Nat → List Nat
  | 0, _ => []
  | _, 0 => []
  | fuel + 1, n + 1 => ((n + 1) % 10 + 48) :: encNatAux fuel ((n + 1) / 10)

/-- Decimal digit bytes of a natural number, most significant first. -/
def encNat (n : Nat) : List Nat :=
  (encNatAux n n).reverse

/-- Parse decimal digit bytes back into a natural number. -/
def decNat (l : List Nat) : Nat :=
  Nat.ofDigits 10 (l.reverse.map (· - 48))

/-- Integer encoding: optional leading minus byte (45), then digits. -/
def encInt (i : Int) : List Nat :=
  if i < 0 then 45 :: encNat i.natAbs else encNat i.natAbs

/-- Parse an optionally minus-signed decimal byte string. -/
def decInt (l : List Nat) : Int :=
  if l.head? = some 45 then -(decNat l.tail : Int) else (decNat l : Int)

/-- Rational encoding: numerator, slash byte (47), denominator. -/
def encRat (q : ℚ) : List Nat :=
  encInt q.num ++ 47 :: encNat q.den

/-- Serialize a record as one line (without the trailing newline):
bracket, stamp, comma, key, comma, value, bracket. -/
def serialize (r : DBTuple) : List Nat :=
  91 :: (encRat r.stamp ++ 44 :: (encNat r.key ++ 44 :: (encNat r.value ++ [93])))

/-- Parse one serialized line back into a record; `none` on malformed
input.  Inverse of `serialize` on its range. -/
def loads (l : List Nat) : Option DBTuple :=
  match l with
  | 91 :: rest =>
    match rest.reverse with
    | 93 :: midRev =>
      match midRev.reverse.splitOn 44 with
      | [f1, f2, f3] =>
        match f1.splitOn 47 with
        | [numPart, denPart] =>
          some ⟨mkRat (decInt numPart) (decNat denPart), decNat f2, decNat f3⟩
        | _ => none
      | _ => none
    | _ => none
  | _ => none

theorem encNatAux_eq_digits :
    ∀ (fuel n : Nat), n ≤ fuel → (encNatAux fuel n).map (· - 48) = Nat.digits 10 n := by
  intro fuel
  induction fuel with
  | zero =>
    intro n hn
    have : n = 0 := by omega
    subst this
    simp [encNatAux]
  | succ fuel ih =>
    intro n hn
    cases n with
    | zero => simp [encNatAux]
    | succ m =>
      rw [encNatAux, List.map_cons]
      have hlt : (m + 1) / 10 < m + 1 := Nat.div_lt_self (Nat.succ_pos m) (by norm_num)
      rw [ih ((m + 1) / 10) (by omega)]
      rw [Nat.digits_def' (by norm_num : (1 : ℕ) < 10) (Nat.succ_pos m)]
      simp

theorem decNat_encNat (n : Nat) : decNat (encNat n) = n := by
  rw [decNat, encNat, List.reverse_reverse, encNatAux_eq_digits n n le_rfl,
    Nat.ofDigits_digits]

theorem encNatAux_mem_range {fuel n b : Nat} :
    b ∈ encNatAux fuel n → 48 ≤ b ∧ b ≤ 57 := by
  induction fuel generalizing n with
  | zero =>
    intro hb
    simp [encNatAux] at hb
  | succ fuel ih =>
    intro hb
    cases n with
    | zero => simp [encNatAux] at hb
    | succ m =>
      rw [encNatAux] at hb
      rcases List.mem_cons.mp hb with rfl | hb'
      · have := Nat.mod_lt (m + 1) (show 0 < 10 by norm_num)
        omega
      · exact ih hb'

theorem encNat_mem_range {n b : Nat} (hb : b ∈ encNat n) : 48 ≤ b ∧ b ≤ 57 := by
  rw [encNat, List.mem_reverse] at hb
  exact encNatAux_mem_range hb

theorem decInt_encInt (i : Int) : decInt (encInt i) = i := by
  by_cases h : i < 0
  · simp only [encInt, if_pos h]
    simp [decInt, decNat_encNat]
    simp [abs_of_neg h]
  · have h45 : (encNat i.natAbs).head? ≠ some 45 := by
      intro hmem
      match hh : encNat i.natAbs with
      | [] => rw [hh] at hmem; simp at hmem
      | b :: rest =>
        rw [hh] at hmem
        simp only [List.head?_cons, Option.some.injEq] at hmem
        have : b ∈ encNat i.natAbs := by rw [hh]; exact List.mem_cons_self _ _
        have := encNat_mem_range this
        omega
    simp only [encInt, if_neg h, decInt, if_neg h45, decNat_encNat]
    omega

theorem encInt_mem_range {i : Int} {b : Nat} (hb : b ∈ encInt i) :
    b = 45 ∨ (48 ≤ b ∧ b ≤ 57) := by
  by_cases h : i < 0
  · simp only [encInt, if_pos h, List.mem_cons] at hb
    rcases hb with rfl | hb
    · exact Or.inl rfl
    · exact Or.inr (encNat_mem_range hb)
  · simp only [encInt, if_neg h] at hb
    exact Or.inr (encNat_mem_range hb)

theorem encRat_mem_range {q : ℚ} {b : Nat} (hb : b ∈ encRat q) :
    b = 45 ∨ b = 47 ∨ (48 ≤ b ∧ b ≤ 57) := by
  simp only [encRat, List.mem_append, List.mem_cons] at hb
  rcases hb with hb | rfl | hb
  · rcases encInt_mem_range hb with h | h
    · exact Or.inl h
    · exact Or.inr (Or.inr h)
  · exact Or.inr (Or.inl rfl)
  · exact Or.inr (Or.inr (encNat_mem_range hb))

theorem serialize_bounds {r : DBTuple} {b : Nat} (hb : b ∈ serialize r) :
    44 ≤ b ∧ b ≤ 93 := by
  simp only [serialize, List.mem_cons, List.mem_append, List.mem_singleton,
    List.not_mem_nil, or_false] at hb
  rcases hb with rfl | hb | rfl | hb | rfl | hb | rfl
  · omega
  · rcases encRat_mem_range hb with h | h | h <;> omega
  · omega
  · have := encNat_mem_range hb; omega
  · omega
  · have := encNat_mem_range hb; omega
  · omega

/-- No serialized record contains the newline byte. -/
theorem serialize_ne_newline {r : DBTuple} {b : Nat} (hb : b ∈ serialize r) : b ≠ 10 := by
  have := serialize_bounds hb; omega

theorem loads_serialize (r : DBTuple) : loads (serialize r) = some r := by
  have h44rat : (44 : Nat) ∉ encRat r.stamp := by
    intro h
    rcases encRat_mem_range h with h | h | h <;> omega
  have h44key : (44 : Nat) ∉ encNat r.key := by
    intro h; have := encNat_mem_range h; omega
  have h44val : (44 : Nat) ∉ encNat r.value := by
    intro h; have := encNat_mem_range h; omega
  have h47num : (47 : Nat) ∉ encInt r.stamp.num := by
    intro h
    rcases encInt_mem_range h with h | h <;> omega
  have h47den : (47 : Nat) ∉ encNat r.stamp.den := by
    intro h; have := encNat_mem_range h; omega
  have hmid : encRat r.stamp ++ 44 :: (encNat r.key ++ 44 :: encNat r.value) =
      [(44 : Nat)].intercalate [encRat r.stamp, encNat r.key, encNat r.value] := by
    simp [List.intercalate]
  have hsplit : (encRat r.stamp ++ 44 :: (encNat r.key ++ 44 :: encNat r.value)).splitOn 44 =
      [encRat r.stamp, encNat r.key, encNat r.value] := by
    rw [hmid]
    apply List.splitOn_intercalate
    · intro l hl
      simp only [List.mem_cons, List.not_mem_nil, or_false] at hl
      rcases hl with rfl | rfl | rfl
      · exact h44rat
      · exact h44key
      · exact h44val
    · simp
  have hsplit47 : (encRat r.stamp).splitOn 47 = [encInt r.stamp.num, encNat r.stamp.den] := by
    have : encRat r.stamp = [(47 : Nat)].intercalate [encInt r.stamp.num, encNat r.stamp.den] := by
      simp [encRat, List.intercalate]
    rw [this]
    apply List.splitOn_intercalate
    · intro l hl
      simp only [List.mem_cons, List.not_mem_nil, or_false] at hl
      rcases hl with rfl | rfl
      · exact h47num
      · exact h47den
    · simp
  have hrev : (encRat r.stamp ++ 44 :: (encNat r.key ++ 44 :: (encNat r.value ++ [93]))).reverse
      = 93 :: (encRat r.stamp ++ 44 :: (encNat r.key ++ 44 :: encNat r.value)).reverse := by
    simp
  simp only [loads, serialize, hrev, List.reverse_reverse, hsplit, hsplit47,
    decInt_encInt, decNat_encNat, Rat.mkRat_self]

/-! ### Association lists

Python `dict` (as wrapped by `_SafeDict`) is modelled as an association
list: `assocSet` replaces in place when the key is present (preserving
position, as CPython dicts preserve insertion order) and appends
otherwise. -/

def lookupA {β : Type} (l : List (Nat × β)) (k : Nat) : Option β :=
  (l.find? (fun p => p.1 == k)).map (·.2)

def memA {β : Type} (l : List (Nat × β)) (k : Nat) : Bool :=
  (lookupA l k).isSome

def assocSet {β : Type} (l : List (Nat × β)) (k : Nat) (v : β) : List (Nat × β) :=
  if memA l k then l.map (fun p => if p.1 == k then (k, v) else p) else l ++ [(k, v)]

/-! ### Cache write and the janitor's eviction decision -/

/-- Admission-controlled cache write, from `_Cache.__setitem__`: when the
cache is at or above capacity and the key is not resident, the write is
dropped entirely (no entry, no ticket); otherwise the entry is stored
and a ticket `(tickTime, key)` is enqueued.  `entries` is the cache
mapping, `hist` the ticket queue (`_setitem_history`), front first. -/
def cacheSet (cacheSize : Nat) (entries : List (Nat × ℚ × Nat)) (hist : List (ℚ × Nat))
    (key : Nat) (stamp : ℚ) (value : Nat) (tickTime : ℚ) :
    List (Nat × ℚ × Nat) × List (ℚ × Nat) :=
  if cacheSize ≤ entries.length ∧ memA entries key = false then (entries, hist)
  else (assocSet entries key (stamp, value), hist ++ [(tickTime, key)])

/-- Outcome of one janitor pass over the ticket queue
(`_Cache.free_cache`). -/
inductive FreeResult
  | idle        -- queue empty: sleep and return
  | absent      -- popped key no longer cached
  | clockSkew   -- retrograde clock: warn, never evict
  | staleFirst  -- first timestamp comparison failed: ticket discarded
  | staleSecond -- re-check after the wait failed: ticket discarded
  | evicted     -- both checks passed: entry removed
  | keyError    -- entry vanished before the re-read (unreachable: only the janitor deletes)
  deriving DecidableEq, Repr

/-- Decision logic of `_Cache.free_cache`.  `cache1` and `now1` are the
cache contents and clock at the first read; `cache2` is the cache at the
re-read after the expiry wait (the wait itself only lets wall time pass
and is not part of the decision).  The entry is deleted from the cache
exactly when the result is `evicted`. -/
def free_cache_step (hist : List (ℚ × Nat))
    (cache1 : List (Nat × ℚ × Nat)) (now1 : ℚ)
    (cache2 : List (Nat × ℚ × Nat)) : FreeResult :=
  match hist with
  | [] => .idle
  | (stampOp, key) :: _ =>
    match lookupA cache1 key with
    | none => .absent
    | some (stampCache, _) =>
      if now1 < stampCache ∨ now1 < stampOp then .clockSkew
      else if ¬ (|stampCache - stampOp| < 1/10) then .staleFirst
      else
        match lookupA cache2 key with
        | none => .keyError
        | some (stampCache2, _) =>
          if ¬ (|stampCache2 - stampOp| < 1/10) then .staleSecond
          else .evicted

/-! ### Engine state and operations (`_DBase`) -/

/-- Engine state.  Segment files are byte lists; `dbFiles` doubles as
the storage directory contents (the file at list position `i` is
`storage.i.db`) and as the reader handles `_db_files`.  Timestamps from
`time.time()` are passed to each operation explicitly, one rational per
call site in call order. -/
structure DBState where
  locked : Bool                  -- the engine-wide `_lock`
  index : List (Nat × Nat × Nat) -- `_index`: key ↦ (segment ordinal, byte offset)
  cache : List (Nat × ℚ × Nat)   -- `_cache`: key ↦ (stamp, value)
  hist : List (ℚ × Nat)          -- `_setitem_history` ticket queue, front first
  dbFiles : List (List Nat)      -- `_db_files`: per-segment byte contents
  activeIdx : Option Nat         -- position of `_active_file` in `dbFiles`, if any
  readersOpen : List Bool        -- open flag of each segment read handle
  writerClosed : List Nat        -- positions whose append writer has been closed
  stopFlag : Bool                -- `_stop_flag`
  dbFilesize : Nat               -- `_db_filesize`
  cacheSize : Nat                -- `_cache_size`
  numDbs : Nat                   -- `_num_dbs`
  deriving DecidableEq, Repr

/-- Write cursor of the active segment (`_active_file.tell()`); the
writer is opened in append mode, so the cursor is the file length. -/
def activeTell (s : DBState) : Nat :=
  match s.activeIdx with
  | none => 0
  | some i => (s.dbFiles.getD i []).length

/-- Rotation, from `_DBase._switch_active_db`: fails if a file already
exists at ordinal `_num_dbs` (a directory with files at positions
`0 .. dbFiles.length - 1` contains ordinal `numDbs` iff
`numDbs < dbFiles.length`); otherwise creates the empty next segment,
appends its reader, closes the previous writer, and makes it active. -/
def switchActiveDb (s : DBState) : Except String DBState :=
  if s.numDbs < s.dbFiles.length then .error "error num_dbs"
  else .ok { s with
    numDbs := s.numDbs + 1,
    dbFiles := s.dbFiles ++ [[]],
    readersOpen := s.readersOpen ++ [true],
    writerClosed := (match s.activeIdx with
      | some i => s.writerClosed ++ [i]
      | none => s.writerClosed),
    activeIdx := some s.dbFiles.length }

/-- Rotation trigger of `update`: no active segment, or the active
writer's cursor strictly beyond `_db_filesize`. -/
def rotCond (s : DBState) : Prop :=
  s.activeIdx.isNone ∨ s.dbFilesize < activeTell s

instance (s : DBState) : Decidable (rotCond s) := by unfold rotCond; infer_instance

/-- Append bytes to the active segment through the writer handle. -/
def appendActive (s : DBState) (bs : List Nat) : DBState :=
  match s.activeIdx with
  | some i => { s with dbFiles := s.dbFiles.set i ((s.dbFiles.getD i []) ++ bs) }
  | none => s

inductive OpStatus
  | ok         -- normal return
  | blocked    -- the engine-wide lock is already held: the call never proceeds
  | fatal      -- RuntimeError from rotation (propagates, lock still held)
  | ioError    -- the disk append raised (propagates, lock still held)
  | parseError -- json.loads failed on the disk read (propagates, lock still held)
  deriving DecidableEq, Repr

/-- The engine's `update`, from `_DBase.update`.  `t1 t2 t3` are the
three `time.time()` readings in source order (record stamp, cache
stamp, ticket stamp); `ioOk` is the outcome of the disk append at the
final `print` (false models an I/O error raised there). -/
def update (s : DBState) (t1 t2 t3 : ℚ) (key value : Nat) (ioOk : Bool) :
    DBState × OpStatus :=
  if s.locked then (s, .blocked)
  else
    let s0 := { s with locked := true }
    let buffer : DBTuple := ⟨t1, key, value⟩
    match (if rotCond s0 then switchActiveDb s0 else .ok s0) with
    | .error _ => (s0, .fatal)
    | .ok s1 =>
      let cs := cacheSet s1.cacheSize s1.cache s1.hist key t2 value t3
      let s2 := { s1 with cache := cs.1, hist := cs.2 }
      let s3 := { s2 with
        index := assocSet s2.index key (s2.dbFiles.length - 1, activeTell s2) }
      if ioOk then ({ appendActive s3 (serialize buffer ++ [10]) with locked := false }, .ok)
      else (s3, .ioError)

/-- One `readline()` after a seek: the bytes up to the next newline. -/
def readline (bs : List Nat) : List Nat := bs.takeWhile (fun b => b != 10)

/-- Value resolution inside `get`: the cache hit takes the cached value;
a miss seeks the owning segment's read handle to the stored offset,
reads one line and deserializes it (`none` models a `json.loads`
failure). -/
def getVal (s : DBState) (key : Nat) : Option Nat :=
  match lookupA s.cache key with
  | some (_, v) => some v
  | none =>
    match lookupA s.index key with
    | some (f, off) =>
      (loads (readline ((s.dbFiles.getD f []).drop off))).map (·.value)
    | none => none

/-- The engine's `get`, from `_DBase.get`.  `t1` is the cache-stamp
clock reading, `t2` the ticket clock reading.  Note the source's early
return for a key absent from the index does not release the lock; the
model preserves that (the returned state stays locked). -/
def get (s : DBState) (t1 t2 : ℚ) (key deflt : Nat) : DBState × Nat × OpStatus :=
  if s.locked then (s, deflt, .blocked)
  else
    let s0 := { s with locked := true }
    if memA s0.index key = false then (s0, deflt, .ok)
    else
      match getVal s0 key with
      | none => (s0, deflt, .parseError)
      | some v =>
        let cs := cacheSet s0.cacheSize s0.cache s0.hist key t1 v t2
        ({ s0 with cache := cs.1, hist := cs.2, locked := false }, v, .ok)

/-- The engine's `stop`: sets the stop flag and joins the janitor.  It
does not touch any file handle. -/
def stop (s : DBState) : DBState := { s with stopFlag := true }

/-- Finalizer `_DBase.__del__`: closes every segment reader handle.
The active writer handle is not closed here (nor anywhere else outside
rotation). -/
def delState (s : DBState) : DBState :=
  { s with readersOpen := s.readersOpen.map (fun _ => false) }

/-- One scheduling decision of the janitor loop `_DBase._free_cache`:
exit on the stop flag, idle below 80% cache occupancy, otherwise run
`free_cache`. -/
inductive JanitorStep
  | exit | idle | work
  deriving DecidableEq, Repr

def janitorStep (s : DBState) : JanitorStep :=
  if s.stopFlag then .exit
  else if s.cache.length * 10 < s.cacheSize * 8 then .idle
  else .work

/-- A caller-issued operation, for reasoning about operation traces. -/
inductive Op
  | upd (t1 t2 t3 : ℚ) (key value : Nat) (ioOk : Bool)
  | rd (t1 t2 : ℚ) (key deflt : Nat)

def applyOp (s : DBState) : Op → DBState × OpStatus
  | .upd t1 t2 t3 k v io => update s t1 t2 t3 k v io
  | .rd t1 t2 k d => ((get s t1 t2 k d).1, (get s t1 t2 k d).2.2)

/-- Run a trace of operations; `none` as soon as one does not return
normally. -/
def runOps : DBState → List Op → Option DBState
  | s, [] => some s
  | s, o :: os =>
    let r := applyOp s o
    if r.2 = OpStatus.ok then runOps r.1 os else none

/-- A trace never updates key `k` (reads are unrestricted). -/
def noUpdOf (k : Nat) : List Op → Prop
  | [] => True
  | .upd _ _ _ k' _ _ :: os => k' ≠ k ∧ noUpdOf k os
  | .rd _ _ _ _ :: os => noUpdOf k os

/-- A fresh engine over the given already-repaired segment files, as
left by `_DBase.__init__`: no active writer, empty index and cache, all
readers open, janitor running. -/
def initState (files : List (List Nat)) (dbFilesize cacheSize : Nat) : DBState :=
  { locked := false, index := [], cache := [], hist := [],
    dbFiles := files, activeIdx := none,
    readersOpen := files.map (fun _ => true), writerClosed := [],
    stopFlag := false, dbFilesize := dbFilesize, cacheSize := cacheSize,
    numDbs := files.length }

/-! ### Startup scan and ordinal-continuity repair (`_DBase.__init__`)

The storage directory is modelled as an association list from segment
ordinal to file contents (only files matching the
`storage.<digits>.db` pattern take part; the name is identified with
its ordinal). -/

/-- Remove the file at ordinal `o` (all entries with that key). -/
def fsErase (fs : List (Nat × List Nat)) (o : Nat) : List (Nat × List Nat) :=
  fs.filter (fun p => p.1 != o)

/-- The renumbering loop of `__init__`: walk the ordinals of the sorted
file list; a file whose ordinal differs from its position is renamed to
the position (`file.replace`), after asserting the target name does not
exist.  `Except.error` models the failed `assert` (and the unreachable
case of a listed file missing from the directory). -/
def repairAux (fs : List (Nat × List Nat)) : List Nat → Nat → Except Unit (List (Nat × List Nat))
  | [], _ => .ok fs
  | o :: os, idx =>
    if o = idx then repairAux fs os (idx + 1)
    else if (lookupA fs idx).isSome then .error ()
    else
      match lookupA fs o with
      | none => .error ()
      | some b => repairAux ((idx, b) :: fsErase fs o) os (idx + 1)

/-- Insertion sort by ordinal, modelling `sorted(files, key=...)`. -/
def insertSorted (p : Nat × List Nat) : List (Nat × List Nat) → List (Nat × List Nat)
  | [] => [p]
  | q :: qs => if p.1 ≤ q.1 then p :: q :: qs else q :: insertSorted p qs

def sortByOrd (l : List (Nat × List Nat)) : List (Nat × List Nat) :=
  l.foldr insertSorted []

/-- The startup scan: sort the matched files by ordinal and run the
renumbering loop.  On success the engine opens one reader per file and
reports `len(files)` segments. -/
def dbInit (fs : List (Nat × List Nat)) : Except Unit (List (Nat × List Nat)) :=
  repairAux fs ((sortByOrd fs).map Prod.fst) 0

/-! ### Invariants -/

/-- Structural well-formedness of an engine state: the segment count
matches the directory, and the active segment (when present) is the
last one. -/
def WF0 (s : DBState) : Prop :=
  s.numDbs = s.dbFiles.length ∧
  (s.activeIdx = none ∨ (s.dbFiles ≠ [] ∧ s.activeIdx = some (s.dbFiles.length - 1)))

/-- Well-formedness between operations: structural invariant plus the
engine-wide lock released. -/
def WF (s : DBState) : Prop := WF0 s ∧ s.locked = false

instance (s : DBState) : Decidable (WF0 s) := by unfold WF0; infer_instance

instance (s : DBState) : Decidable (WF s) := by unfold WF; infer_instance

/-- Key `k` currently maps to value `v`: its index entry points at a
complete serialized record line with value `v` inside its segment, and
any cache entry for `k` also carries `v`. -/
def goodKey (s : DBState) (k v : Nat) : Prop :=
  (∃ f off r pre post, lookupA s.index k = some (f, off) ∧
     s.dbFiles[f]? = some (pre ++ serialize r ++ 10 :: post) ∧
     pre.length = off ∧ r.value = v) ∧
  (∀ st w, lookupA s.cache k = some (st, w) → w = v)

/-! ### Association list lemmas -/

theorem lookupA_cons {β : Type} (p : Nat × β) (l : List (Nat × β)) (k : Nat) :
    lookupA (p :: l) k = if p.1 = k then some p.2 else lookupA l k := by
  by_cases h : p.1 = k
  · simp [lookupA, List.find?_cons, h]
  · simp [lookupA, List.find?_cons, h]

theorem lookupA_append_singleton_self {β : Type} (l : List (Nat × β)) (k : Nat) (v : β)
    (h : lookupA l k = none) : lookupA (l ++ [(k, v)]) k = some v := by
  induction l with
  | nil => simp [lookupA_cons, lookupA]
  | cons p rest ih =>
    rw [List.cons_append, lookupA_cons]
    rw [lookupA_cons] at h
    by_cases hp : p.1 = k
    · simp [hp] at h
    · simp only [if_neg hp] at h ⊢
      exact ih h

theorem lookupA_append_singleton_ne {β : Type} (l : List (Nat × β)) {k k' : Nat} (v : β)
    (h : k' ≠ k) : lookupA (l ++ [(k, v)]) k' = lookupA l k' := by
  induction l with
  | nil =>
    rw [List.nil_append, lookupA_cons, if_neg (fun hh => h hh.symm)]
  | cons p rest ih =>
    rw [List.cons_append, lookupA_cons, lookupA_cons]
    by_cases hp : p.1 = k'
    · simp [hp]
    · simp only [if_neg hp]
      exact ih

theorem lookupA_map_replace {β : Type} (l : List (Nat × β)) (k : Nat) (v : β) :
    lookupA (l.map (fun p => if p.1 == k then (k, v) else p)) k =
      (lookupA l k).map (fun _ => v) := by
  induction l with
  | nil => simp [lookupA]
  | cons p rest ih =>
    rw [List.map_cons]
    by_cases hp : p.1 = k
    · rw [if_pos (show (p.1 == k) = true by simp [hp])]
      rw [lookupA_cons, lookupA_cons]
      simp [hp]
    · rw [if_neg (show ¬ ((p.1 == k) = true) by simp [hp])]
      rw [lookupA_cons, lookupA_cons, if_neg hp, if_neg hp, ih]

theorem lookupA_map_replace_ne {β : Type} (l : List (Nat × β)) {k k' : Nat} (v : β)
    (h : k' ≠ k) :
    lookupA (l.map (fun p => if p.1 == k then (k, v) else p)) k' = lookupA l k' := by
  induction l with
  | nil => simp [lookupA]
  | cons p rest ih =>
    rw [List.map_cons]
    by_cases hp : p.1 = k
    · rw [if_pos (show (p.1 == k) = true by simp [hp])]
      rw [lookupA_cons, lookupA_cons]
      rw [if_neg (fun hh => h hh.symm), if_neg (show ¬ (p.1 = k') by rw [hp]; exact fun hh => h hh.symm)]
      exact ih
    · rw [if_neg (show ¬ ((p.1 == k) = true) by simp [hp])]
      rw [lookupA_cons, lookupA_cons]
      by_cases hpk : p.1 = k'
      · simp [hpk]
      · rw [if_neg hpk, if_neg hpk, ih]

theorem lookupA_assocSet_self {β : Type} (l : List (Nat × β)) (k : Nat) (v : β) :
    lookupA (assocSet l k v) k = some v := by
  unfold assocSet
  by_cases h : memA l k
  · rw [if_pos h, lookupA_map_replace]
    unfold memA at h
    obtain ⟨w, hw⟩ := Option.isSome_iff_exists.mp h
    simp [hw]
  · rw [if_neg h]
    apply lookupA_append_singleton_self
    unfold memA at h
    simpa using h

theorem lookupA_assocSet_ne {β : Type} (l : List (Nat × β)) {k k' : Nat} (v : β)
    (h : k' ≠ k) : lookupA (assocSet l k v) k' = lookupA l k' := by
  unfold assocSet
  by_cases hm : memA l k
  · rw [if_pos hm, lookupA_map_replace_ne _ _ h]
  · rw [if_neg hm, lookupA_append_singleton_ne _ _ h]

/-! ### Cache write lemmas -/

theorem cacheSet_lookup_ne (sz : Nat) (c : List (Nat × ℚ × Nat)) (hq : List (ℚ × Nat))
    {k k' : Nat} (st : ℚ) (v : Nat) (t : ℚ) (h : k' ≠ k) :
    lookupA (cacheSet sz c hq k st v t).1 k' = lookupA c k' := by
  unfold cacheSet
  split
  · rfl
  · exact lookupA_assocSet_ne _ _ h

theorem cacheSet_lookup_self (sz : Nat) (c : List (Nat × ℚ × Nat)) (hq : List (ℚ × Nat))
    (k : Nat) (st : ℚ) (v : Nat) (t : ℚ) {w : ℚ × Nat}
    (h : lookupA (cacheSet sz c hq k st v t).1 k = some w) : w = (st, v) := by
  unfold cacheSet at h
  split at h
  · rename_i hcond
    have h2 : lookupA c k = some w := h
    have h3 := hcond.2
    unfold memA at h3
    rw [h2] at h3
    simp at h3
  · rw [lookupA_assocSet_self] at h
    exact (Option.some.injEq _ _ ▸ h).symm

/-! ### Reading back a stored line -/

theorem takeWhile_append_cons {p : Nat → Bool} (xs : List Nat) (y : Nat) (ys : List Nat)
    (hxs : ∀ x ∈ xs, p x = true) (hy : p y = false) :
    (xs ++ y :: ys).takeWhile p = xs := by
  induction xs with
  | nil => simp [List.takeWhile_cons, hy]
  | cons x rest ih =>
    rw [List.cons_append, List.takeWhile_cons, hxs x (List.mem_cons_self _ _)]
    rw [ih (fun z hz => hxs z (List.mem_cons_of_mem _ hz))]
    simp

/-- Seeking to the byte offset where a record's line begins and calling
`readline` returns exactly that line. -/
theorem readline_drop (pre post : List Nat) (r : DBTuple) :
    readline ((pre ++ serialize r ++ 10 :: post).drop pre.length) = serialize r := by
  have : pre ++ serialize r ++ 10 :: post = pre ++ (serialize r ++ 10 :: post) := by
    simp [List.append_assoc]
  rw [this, List.drop_left, readline]
  apply takeWhile_append_cons
  · intro x hx
    simpa using serialize_ne_newline hx
  · simp

/-- The disk path of `get` recovers the record whose line starts at the
stored offset. -/
theorem loads_readline_drop (pre post : List Nat) (r : DBTuple) :
    loads (readline ((pre ++ serialize r ++ 10 :: post).drop pre.length)) = some r := by
  rw [readline_drop, loads_serialize]

/-! ### Behaviour of a successful `update` -/

/-- Master lemma: from a well-formed state, `update` with a successful
disk append returns normally and (1) re-establishes well-formedness,
(2) appends the record `⟨t1, key, value⟩` as the final line of the
active segment and indexes `key` at that line's starting byte offset,
(3) leaves all other index entries alone, (4) performs exactly the
admission-controlled cache write, and (5) only ever extends existing
segment files. -/
theorem update_ok_spec (s : DBState) (t1 t2 t3 : ℚ) (k v : Nat) (hwf : WF s) :
    ∃ s1, update s t1 t2 t3 k v true = (s1, OpStatus.ok) ∧
      WF s1 ∧
      s1.dbFiles ≠ [] ∧
      s1.activeIdx = some (s1.dbFiles.length - 1) ∧
      (∃ pre, s1.dbFiles[s1.dbFiles.length - 1]? =
          some (pre ++ serialize ⟨t1, k, v⟩ ++ 10 :: []) ∧
        lookupA s1.index k = some (s1.dbFiles.length - 1, pre.length)) ∧
      (∀ k', k' ≠ k → lookupA s1.index k' = lookupA s.index k') ∧
      (s1.cache, s1.hist) = cacheSet s.cacheSize s.cache s.hist k t2 v t3 ∧
      (∀ (f : Nat) (c : List Nat), s.dbFiles[f]? = some c →
        ∃ ext : List Nat, s1.dbFiles[f]? = some (c ++ ext)) ∧
      s1.cacheSize = s.cacheSize ∧
      s1.stopFlag = s.stopFlag ∧
      s1.dbFiles.length =
        (if rotCond s then s.dbFiles.length + 1 else s.dbFiles.length) ∧
      (rotCond s →
        s1.dbFiles[s1.dbFiles.length - 1]? = some (serialize ⟨t1, k, v⟩ ++ 10 :: [])) := by
  obtain ⟨⟨hnum, hact⟩, hlock⟩ := hwf
  by_cases hrot : rotCond s
  · -- rotation branch
    have hnotlt : ¬ s.numDbs < s.dbFiles.length := by omega
    simp only [update, hlock, Bool.false_eq_true, if_false, switchActiveDb]
    rw [if_pos (show rotCond { s with locked := true } from hrot)]
    rw [if_neg (show ¬ ({ s with locked := true } : DBState).numDbs
        < ({ s with locked := true } : DBState).dbFiles.length from hnotlt)]
    simp only [if_pos rfl]
    refine ⟨_, rfl, ?_⟩
    have htell2 : (s.dbFiles ++ ([] : List Nat) :: []).getD s.dbFiles.length [] = [] := by
      rw [List.getD_eq_getElem?_getD, List.getElem?_concat_length]
      rfl
    simp only [appendActive, activeTell, htell2, List.length_nil, List.nil_append,
      List.length_set, List.length_append, List.length_cons, Nat.add_sub_cancel]
    refine ⟨⟨⟨?_, Or.inr ⟨?_, ?_⟩⟩, rfl⟩, ?_, ?_, ?_, ?_, ?_, ?_, ?_, ?_, ?_, ?_⟩
    · simp [hnum]
    · simp
    · simp
    · simp
    · simp
    · -- appended record and index entry
      refine ⟨[], ?_, ?_⟩
      · rw [List.getElem?_set_self (by simp)]
        simp
      · rw [lookupA_assocSet_self]
        simp
    · -- other index entries
      intro k' hk'
      rw [lookupA_assocSet_ne _ _ hk']
    · -- cache write
      trivial
    · -- old files only extended
      intro f c hc
      have hf : f < s.dbFiles.length := (List.getElem?_eq_some_iff.mp hc).1
      refine ⟨[], ?_⟩
      rw [List.getElem?_set_ne (by omega)]
      rw [List.getElem?_append_left hf, hc, List.append_nil]
    · -- cacheSize unchanged
      trivial
    · -- stopFlag unchanged
      trivial
    · -- length
      rw [if_pos hrot]
    · -- on rotation the record is alone in the new segment
      intro hr2
      rw [List.getElem?_set_self (by simp)]
  · -- no-rotation branch
    have hne : s.activeIdx ≠ none := by
      intro h
      exact hrot (Or.inl (by simp [h]))
    obtain ⟨hfno, hactive⟩ := hact.resolve_left hne
    have hlt : s.dbFiles.length - 1 < s.dbFiles.length := by
      have := List.length_pos.mpr hfno
      omega
    simp only [update, hlock, Bool.false_eq_true, if_false]
    rw [if_neg (show ¬ rotCond { s with locked := true } from hrot)]
    simp only [if_pos rfl]
    refine ⟨_, rfl, ?_⟩
    simp only [appendActive, activeTell, hactive, List.length_set]
    refine ⟨⟨⟨?_, Or.inr ⟨?_, ?_⟩⟩, rfl⟩, ?_, ?_, ?_, ?_, ?_, ?_, ?_, ?_, ?_, ?_⟩
    · simp [hnum]
    · simp [hfno]
    · simp
    · simp [hfno]
    · simp
    · -- appended record and index entry
      refine ⟨s.dbFiles.getD (s.dbFiles.length - 1) [], ?_, ?_⟩
      · rw [List.getElem?_set_self hlt]
        simp [List.append_assoc]
      · rw [lookupA_assocSet_self]
    · -- other index entries
      intro k' hk'
      rw [lookupA_assocSet_ne _ _ hk']
    · -- cache write
      trivial
    · -- old files only extended
      intro f c hc
      by_cases hfl : f = s.dbFiles.length - 1
      · refine ⟨serialize ⟨t1, k, v⟩ ++ 10 :: [], ?_⟩
        subst hfl
        rw [List.getElem?_set_self hlt]
        rw [List.getD_eq_getElem?_getD, hc]
        simp [List.append_assoc]
      · refine ⟨[], ?_⟩
        rw [List.getElem?_set_ne (fun h => hfl h.symm), hc, List.append_nil]
    · -- cacheSize unchanged
      trivial
    · -- stopFlag unchanged
      trivial
    · -- length
      rw [if_neg hrot]
    · -- the rotation trigger did not hold
      intro hr2
      exact absurd hr2 hrot

/-! ### Behaviour of `get` -/

/-- A key absent from the index returns the default immediately; the
early return leaves the engine-wide lock held (the source skips
`self._lock.release()` on this path). -/
theorem get_absent (s : DBState) (t1 t2 : ℚ) (k d : Nat) (hlock : s.locked = false)
    (h : memA s.index k = false) :
    get s t1 t2 k d = ({ s with locked := true }, d, OpStatus.ok) := by
  simp only [get, hlock, Bool.false_eq_true, if_false]
  rw [if_pos (show memA ({ s with locked := true } : DBState).index k = false from h)]

/-- On a key currently mapping to `v` (per `goodKey`), `get` returns
`v` — from the cache on a hit, from the owning segment on a miss — and
refreshes the cache entry. -/
theorem get_goodKey (s : DBState) (t1 t2 : ℚ) (k d v : Nat) (hwf : WF s)
    (hg : goodKey s k v) :
    get s t1 t2 k d =
      ({ s with
           locked := false
           cache := (cacheSet s.cacheSize s.cache s.hist k t1 v t2).1
           hist := (cacheSet s.cacheSize s.cache s.hist k t1 v t2).2 }, v, OpStatus.ok) := by
  obtain ⟨⟨f, off, r, pre, post, hidx, hfile, hoff, hval⟩, hcache⟩ := hg
  subst hval
  have hmem : memA s.index k = true := by unfold memA; rw [hidx]; rfl
  have hv : getVal { s with locked := true } k = some r.value := by
    have hgv : getVal ({ s with locked := true } : DBState) k = getVal s k := rfl
    rw [hgv]
    unfold getVal
    cases hc : lookupA s.cache k with
    | some p =>
      obtain ⟨st, w⟩ := p
      have := hcache st w hc
      subst this
      rfl
    | none =>
      have hgd : s.dbFiles.getD f [] = pre ++ serialize r ++ 10 :: post := by
        rw [List.getD_eq_getElem?_getD, hfile]
        rfl
      simp only [hidx, hgd, ← hoff, loads_readline_drop]
      rfl
  simp only [get, hwf.2, Bool.false_eq_true, if_false]
  rw [if_neg (show ¬ memA ({ s with locked := true } : DBState).index k = false by
    rw [show memA ({ s with locked := true } : DBState).index k = memA s.index k from rfl, hmem]
    simp)]
  rw [hv]

/-- Characterization of any `get` that returns normally: either the key
was absent (default returned, lock left held), or the returned value
was cached back and the lock released. -/
theorem get_ok_cases (s s1 : DBState) (t1 t2 : ℚ) (k d val : Nat) (hlock : s.locked = false)
    (h : get s t1 t2 k d = (s1, val, OpStatus.ok)) :
    (memA s.index k = false ∧ s1 = { s with locked := true } ∧ val = d) ∨
    (s1 = { s with
        locked := false
        cache := (cacheSet s.cacheSize s.cache s.hist k t1 val t2).1
        hist := (cacheSet s.cacheSize s.cache s.hist k t1 val t2).2 }) := by
  simp only [get, hlock, Bool.false_eq_true, if_false] at h
  by_cases hm : memA s.index k = false
  · left
    rw [if_pos (show memA ({ s with locked := true } : DBState).index k = false from hm)] at h
    have h1 := congrArg (fun p => p.1) h
    have h2 := congrArg (fun p => p.2.1) h
    simp only at h1 h2
    exact ⟨hm, h1.symm, h2.symm⟩
  · rw [if_neg (show ¬ memA ({ s with locked := true } : DBState).index k = false from hm)] at h
    cases hv : getVal ({ s with locked := true } : DBState) k with
    | none =>
      rw [hv] at h
      exact absurd (congrArg (fun p => p.2.2) h) (by simp)
    | some v =>
      rw [hv] at h
      right
      have h1 := congrArg (fun p => p.1) h
      have h2 := congrArg (fun p => p.2.1) h
      simp only at h1 h2
      subst h2
      exact h1.symm

/-! ### Preservation of a key's value across operations -/

theorem update_false_not_ok (s : DBState) (t1 t2 t3 : ℚ) (k v : Nat) :
    (update s t1 t2 t3 k v false).2 ≠ OpStatus.ok := by
  unfold update
  split
  · simp
  · split
    · simp_all
    · dsimp only
      split <;> simp

theorem applyOp_locked (s : DBState) (o : Op) (h : s.locked = true) :
    (applyOp s o).2 = OpStatus.blocked := by
  cases o with
  | upd t1 t2 t3 k v io => simp [applyOp, update, h]
  | rd t1 t2 k d => simp [applyOp, get, h]

theorem goodKey_update_preserve (s s1 : DBState) (t1 t2 t3 : ℚ) (k v k0 v0 : Nat) (io : Bool)
    (hwf : WF s) (hg : goodKey s k0 v0) (hk : k ≠ k0)
    (h : update s t1 t2 t3 k v io = (s1, OpStatus.ok)) :
    WF s1 ∧ goodKey s1 k0 v0 := by
  cases io with
  | false => exact absurd (congrArg (fun p => p.2) h) (update_false_not_ok s t1 t2 t3 k v)
  | true =>
    obtain ⟨s1', heq, hwf1, hne, hact, hrec, hoth, hcheq, hext, hcsz, hsf, hlen, hrotc⟩ :=
      update_ok_spec s t1 t2 t3 k v hwf
    rw [heq] at h
    have hss : s1' = s1 := congrArg (fun p => p.1) h
    subst hss
    refine ⟨hwf1, ?_, ?_⟩
    · obtain ⟨⟨f, off, r, pre, post, hidx, hfile, hoff, hval⟩, hcache⟩ := hg
      obtain ⟨ext, hext2⟩ := hext f _ hfile
      have hassoc : (pre ++ serialize r ++ 10 :: post) ++ ext =
          pre ++ serialize r ++ 10 :: (post ++ ext) := by
        simp [List.append_assoc]
      refine ⟨f, off, r, pre, post ++ ext, ?_, ?_, hoff, hval⟩
      · rw [hoth k0 (Ne.symm hk), hidx]
      · rw [hext2, hassoc]
    · intro st w hw
      have hc1 : s1'.cache = (cacheSet s.cacheSize s.cache s.hist k t2 v t3).1 :=
        congrArg (fun p => p.1) hcheq
      rw [hc1] at hw
      rw [cacheSet_lookup_ne _ _ _ _ _ _ (Ne.symm hk)] at hw
      exact hg.2 st w hw

theorem goodKey_update_self (s s1 : DBState) (t1 t2 t3 : ℚ) (k v : Nat)
    (hwf : WF s) (h : update s t1 t2 t3 k v true = (s1, OpStatus.ok)) :
    WF s1 ∧ goodKey s1 k v := by
  obtain ⟨s1', heq, hwf1, hne, hact, hrec, hoth, hcheq, hext, hcsz, hsf, hlen, hrotc⟩ :=
    update_ok_spec s t1 t2 t3 k v hwf
  rw [heq] at h
  have hss : s1' = s1 := congrArg (fun p => p.1) h
  subst hss
  obtain ⟨pre, hfile, hidx⟩ := hrec
  refine ⟨hwf1, ⟨s1'.dbFiles.length - 1, pre.length, ⟨t1, k, v⟩, pre, [], hidx, hfile, rfl, rfl⟩, ?_⟩
  intro st w hw
  have hc1 : s1'.cache = (cacheSet s.cacheSize s.cache s.hist k t2 v t3).1 :=
    congrArg (fun p => p.1) hcheq
  rw [hc1] at hw
  have := cacheSet_lookup_self _ _ _ _ _ _ _ hw
  exact congrArg (fun p => p.2) this

theorem goodKey_get_preserve (s s1 : DBState) (t1 t2 : ℚ) (kr d val k0 v0 : Nat)
    (hwf : WF s) (hg : goodKey s k0 v0)
    (h : get s t1 t2 kr d = (s1, val, OpStatus.ok)) :
    WF0 s1 ∧ goodKey s1 k0 v0 := by
  rcases get_ok_cases s s1 t1 t2 kr d val hwf.2 h with ⟨hm, hs1, hvald⟩ | hs1
  · subst hs1
    exact ⟨hwf.1, hg⟩
  · by_cases hkk : kr = k0
    · subst hkk
      have hgk := get_goodKey s t1 t2 kr d v0 hwf hg
      rw [hgk] at h
      have hval : v0 = val := congrArg (fun p => p.2.1) h
      subst hval
      have hs1' : _ = s1 := congrArg (fun p => p.1) h
      rw [← hs1']
      obtain ⟨⟨f, off, r, pre, post, hidx, hfile, hoff, hrv⟩, hcache⟩ := hg
      refine ⟨hwf.1, ⟨f, off, r, pre, post, hidx, hfile, hoff, hrv⟩, ?_⟩
      intro st w hw
      have hw' : lookupA (cacheSet s.cacheSize s.cache s.hist kr t1 v0 t2).1 kr
          = some (st, w) := hw
      have := cacheSet_lookup_self _ _ _ _ _ _ _ hw'
      exact congrArg (fun p => p.2) this
    · subst hs1
      obtain ⟨⟨f, off, r, pre, post, hidx, hfile, hoff, hrv⟩, hcache⟩ := hg
      refine ⟨hwf.1, ⟨f, off, r, pre, post, hidx, hfile, hoff, hrv⟩, ?_⟩
      intro st w hw
      have hw' : lookupA (cacheSet s.cacheSize s.cache s.hist kr t1 val t2).1 k0
          = some (st, w) := hw
      rw [cacheSet_lookup_ne _ _ _ _ _ _ (fun hh => hkk hh.symm)] at hw'
      exact hcache st w hw'

/-- Along any trace of normally-returning operations none of which
updates key `k`, the value recorded for `k` is preserved. -/
theorem runOps_preserve (k v : Nat) :
    ∀ (ops : List Op) (s s2 : DBState), WF0 s → goodKey s k v → noUpdOf k ops →
      runOps s ops = some s2 → WF0 s2 ∧ goodKey s2 k v := by
  intro ops
  induction ops with
  | nil =>
    intro s s2 h1 h2 _ hr
    simp only [runOps, Option.some.injEq] at hr
    subst hr
    exact ⟨h1, h2⟩
  | cons o os ih =>
    intro s s2 hwf0 hg hno hr
    simp only [runOps] at hr
    by_cases hl : s.locked = true
    · rw [applyOp_locked s o hl] at hr
      simp at hr
    · have hlf : s.locked = false := by revert hl; cases s.locked <;> simp
      have hwf : WF s := ⟨hwf0, hlf⟩
      by_cases hok : (applyOp s o).2 = OpStatus.ok
      · rw [if_pos hok] at hr
        cases o with
        | upd t1 t2 t3 k' v' io =>
          obtain ⟨hkk, hno'⟩ := hno
          have hok' : (update s t1 t2 t3 k' v' io).2 = OpStatus.ok := hok
          have hupd : update s t1 t2 t3 k' v' io =
              ((update s t1 t2 t3 k' v' io).1, OpStatus.ok) := by
            rw [← hok']
          obtain ⟨hwf1, hg1⟩ :=
            goodKey_update_preserve s _ t1 t2 t3 k' v' k v io hwf hg hkk hupd
          exact ih _ _ hwf1.1 hg1 hno' hr
        | rd t1 t2 k' d =>
          have hok' : (get s t1 t2 k' d).2.2 = OpStatus.ok := hok
          have hget : get s t1 t2 k' d =
              ((get s t1 t2 k' d).1, (get s t1 t2 k' d).2.1, OpStatus.ok) := by
            rw [← hok']
          obtain ⟨hwf01, hg1⟩ :=
            goodKey_get_preserve s _ t1 t2 k' d _ k v hwf hg hget
          exact ih _ _ hwf01 hg1 hno hr
      · rw [if_neg hok] at hr
        simp at hr

/-! ### Startup repair lemmas -/

theorem lookupA_fsErase_self (fs : List (Nat × List Nat)) (o : Nat) :
    lookupA (fsErase fs o) o = none := by
  induction fs with
  | nil => rfl
  | cons p rest ih =>
    by_cases hp : p.1 = o
    · have hdrop : fsErase (p :: rest) o = fsErase rest o := by
        simp [fsErase, List.filter_cons, hp]
      rw [hdrop]
      exact ih
    · have hkeep : fsErase (p :: rest) o = p :: fsErase rest o := by
        simp [fsErase, List.filter_cons, hp]
      rw [hkeep, lookupA_cons, if_neg hp]
      exact ih

theorem lookupA_fsErase_ne (fs : List (Nat × List Nat)) {o j : Nat} (h : j ≠ o) :
    lookupA (fsErase fs o) j = lookupA fs j := by
  induction fs with
  | nil => rfl
  | cons p rest ih =>
    by_cases hp : p.1 = o
    · have hdrop : fsErase (p :: rest) o = fsErase rest o := by
        simp [fsErase, List.filter_cons, hp]
      rw [hdrop, ih, lookupA_cons, if_neg (fun hh => h (hp ▸ hh).symm)]
    · have hkeep : fsErase (p :: rest) o = p :: fsErase rest o := by
        simp [fsErase, List.filter_cons, hp]
      rw [hkeep, lookupA_cons, lookupA_cons]
      by_cases hpj : p.1 = j
      · simp [hpj]
      · rw [if_neg hpj, if_neg hpj]
        exact ih

/-- The renumbering loop on a sorted duplicate-free file listing
succeeds and moves the m-th listed file to ordinal `idx + m`,
preserving its contents and everything below `idx`. -/
theorem repairAux_sorted :
    ∀ (l : List (Nat × List Nat)) (fs : List (Nat × List Nat)) (idx : Nat),
      (l.map Prod.fst).Pairwise (· < ·) →
      (∀ p ∈ l, idx ≤ p.1) →
      (∀ p ∈ l, lookupA fs p.1 = some p.2) →
      (∀ j, idx ≤ j → (∀ p ∈ l, p.1 ≠ j) → lookupA fs j = none) →
      ∃ fs2, repairAux fs (l.map Prod.fst) idx = .ok fs2 ∧
        (∀ m (hm : m < l.length), lookupA fs2 (idx + m) = some (l.get ⟨m, hm⟩).2) ∧
        (∀ j, j < idx → lookupA fs2 j = lookupA fs j) := by
  intro l
  induction l with
  | nil =>
    intro fs idx _ _ _ _
    exact ⟨fs, rfl, fun m hm => absurd hm (by simp), fun j _ => rfl⟩
  | cons p rest ih =>
    intro fs idx hsort hge hmem habs
    obtain ⟨o, b⟩ := p
    rw [List.map_cons] at hsort
    have hsort' := (List.pairwise_cons.mp hsort).2
    have hheadlt : ∀ q ∈ rest, o < q.1 := by
      intro q hq
      exact (List.pairwise_cons.mp hsort).1 q.1 (List.mem_map_of_mem Prod.fst hq)
    by_cases ho : o = idx
    · subst ho
      have hstep : repairAux fs (((o, b) :: rest).map Prod.fst) o =
          repairAux fs (rest.map Prod.fst) (o + 1) := by
        rw [List.map_cons, repairAux, if_pos rfl]
      obtain ⟨fs2, hrec, hlook, hpres⟩ := ih fs (o + 1) hsort'
        (fun q hq => hheadlt q hq)
        (fun q hq => hmem q (List.mem_cons_of_mem _ hq))
        (by
          intro j hj hnone
          refine habs j (by omega) ?_
          intro q hq
          rcases List.mem_cons.mp hq with rfl | hq'
          · omega
          · exact hnone q hq')
      refine ⟨fs2, hstep ▸ hrec, ?_, ?_⟩
      · intro m hm
        cases m with
        | zero =>
          rw [Nat.add_zero, hpres o (by omega)]
          exact hmem (o, b) (List.mem_cons_self _ _)
        | succ m' =>
          have hm' : m' < rest.length := by simpa using hm
          have := hlook m' hm'
          rw [show o + (m' + 1) = (o + 1) + m' by omega]
          exact this
      · intro j hj
        exact hpres j (by omega)
    · have holt : idx < o :=
        lt_of_le_of_ne (hge (o, b) (List.mem_cons_self _ _)) (fun hh => ho hh.symm)
      have htgt : lookupA fs idx = none := by
        refine habs idx le_rfl ?_
        intro q hq
        rcases List.mem_cons.mp hq with rfl | hq'
        · omega
        · have := hheadlt q hq'
          omega
      have hmemo : lookupA fs o = some b := hmem (o, b) (List.mem_cons_self _ _)
      have hstep : repairAux fs (((o, b) :: rest).map Prod.fst) idx =
          repairAux ((idx, b) :: fsErase fs o) (rest.map Prod.fst) (idx + 1) := by
        rw [List.map_cons, repairAux, if_neg ho, htgt]
        simp only [Option.isSome_none, Bool.false_eq_true, if_false, hmemo]
      obtain ⟨fs2, hrec, hlook, hpres⟩ := ih ((idx, b) :: fsErase fs o) (idx + 1) hsort'
        (by
          intro q hq
          have := hheadlt q hq
          omega)
        (by
          intro q hq
          have hqo : q.1 ≠ o := by have := hheadlt q hq; omega
          have hqi : q.1 ≠ idx := by have := hheadlt q hq; omega
          rw [lookupA_cons, if_neg (fun hh => hqi hh.symm), lookupA_fsErase_ne fs hqo]
          exact hmem q (List.mem_cons_of_mem _ hq))
        (by
          intro j hj hnone
          have hji : j ≠ idx := by omega
          rw [lookupA_cons, if_neg (fun hh => hji hh.symm)]
          by_cases hjo : j = o
          · subst hjo
            exact lookupA_fsErase_self fs j
          · rw [lookupA_fsErase_ne fs hjo]
            refine habs j (by omega) ?_
            intro q hq
            rcases List.mem_cons.mp hq with rfl | hq'
            · exact fun hh => hjo hh.symm
            · exact hnone q hq')
      refine ⟨fs2, hstep ▸ hrec, ?_, ?_⟩
      · intro m hm
        cases m with
        | zero =>
          rw [Nat.add_zero, hpres idx (by omega), lookupA_cons, if_pos rfl]
          rfl
        | succ m' =>
          have hm' : m' < rest.length := by simpa using hm
          have := hlook m' hm'
          rw [show idx + (m' + 1) = (idx + 1) + m' by omega]
          exact this
      · intro j hj
        rw [hpres j (by omega), lookupA_cons, if_neg (by omega)]
        exact lookupA_fsErase_ne fs (by omega)

/-! ### Claim theorems -/

/-- C9: for every key absent from the index and every default value D,
`get(key, default=D)` returns D and returns normally (never raises). -/
theorem claim_missing_key_default (s : DBState) (t1 t2 : ℚ) (k d : Nat)
    (hlock : s.locked = false) (h : memA s.index k = false) :
    (get s t1 t2 k d).2.1 = d ∧ (get s t1 t2 k d).2.2 = OpStatus.ok := by
  rw [get_absent s t1 t2 k d hlock h]
  exact ⟨rfl, rfl⟩

/-- C9 witness: a fresh engine, `get 5` with default 42. -/
theorem claim_missing_key_default_witness :
    (get (initState [] 100 4) 0 0 5 42).2.1 = 42 ∧
    (get (initState [] 100 4) 0 0 5 42).2.2 = OpStatus.ok :=
  claim_missing_key_default (initState [] 100 4) 0 0 5 42 (by decide) (by decide)

/-- C2 (code bug, evaluated at the failing input): `get` on a key
absent from the index returns the default normally but leaves the
engine-wide lock held — the early return at the `key not in
self._index` check skips `self._lock.release()` — so every subsequent
`update` or `get` blocks forever on the lock. -/
theorem claim_lock_released_bug :
    ((get (initState [] 100 4) 0 0 5 0).1.locked = true) ∧
    ((get (initState [] 100 4) 0 0 5 0).2 = (0, OpStatus.ok)) ∧
    ((update ((get (initState [] 100 4) 0 0 5 0).1) 1 1 1 7 7 true).2
      = OpStatus.blocked) ∧
    ((get ((get (initState [] 100 4) 0 0 5 0).1) 1 1 5 0).2.2 = OpStatus.blocked) := by
  refine ⟨rfl, rfl, rfl, rfl⟩

/-- C8 counterexample: after `stop()` the segment reader handle opened
by the engine is still open — `stop` only sets the flag and joins the
janitor; nothing in it touches a file handle. -/
theorem claim_stop_closes_counterexample :
    (stop ((update (initState [] 100 4) 0 0 0 1 5 true).1)).readersOpen = [true] := by
  rfl

/-- C8 amended: `stop()` signals the janitor (whose next loop check
exits, hence the join returns) and closes nothing; the segment readers
are closed only by the finalizer `__del__`, and the active writer is
closed by neither (only a later rotation would close it). -/
theorem claim_stop_amended (s : DBState) :
    janitorStep (stop s) = JanitorStep.exit ∧
    (stop s).stopFlag = true ∧
    (stop s).readersOpen = s.readersOpen ∧
    (stop s).writerClosed = s.writerClosed ∧
    (delState s).readersOpen = s.readersOpen.map (fun _ => false) ∧
    (delState s).writerClosed = s.writerClosed := by
  refine ⟨?_, rfl, rfl, rfl, rfl, rfl⟩
  simp [janitorStep, stop]

/-- C5: the janitor evicts only when both timestamp comparisons — at
the first read and at the re-read after the expiry wait — find the
cache stamp within the 0.1 epsilon of the ticket stamp; if either
comparison sees a distance above 0.1 (the entry was refreshed since the
ticket was issued), the ticket is dropped without evicting. -/
theorem claim_eviction_double_check (hist : List (ℚ × Nat))
    (cache1 cache2 : List (Nat × ℚ × Nat)) (now1 : ℚ)
    (stampOp : ℚ) (key : Nat) (rest : List (ℚ × Nat)) (s1 s2 : ℚ) (w1 w2 : Nat)
    (hh : hist = (stampOp, key) :: rest)
    (hl1 : lookupA cache1 key = some (s1, w1))
    (hl2 : lookupA cache2 key = some (s2, w2)) :
    (free_cache_step hist cache1 now1 cache2 = FreeResult.evicted →
      |s1 - stampOp| < 1/10 ∧ |s2 - stampOp| < 1/10) ∧
    ((1/10 : ℚ) < |s1 - stampOp| ∨ (1/10 : ℚ) < |s2 - stampOp| →
      free_cache_step hist cache1 now1 cache2 ≠ FreeResult.evicted) := by
  subst hh
  have hkey : free_cache_step ((stampOp, key) :: rest) cache1 now1 cache2
      = FreeResult.evicted →
      |s1 - stampOp| < 1/10 ∧ |s2 - stampOp| < 1/10 := by
    intro hev
    simp only [free_cache_step, hl1, hl2] at hev
    by_cases h1 : (now1 < s1 ∨ now1 < stampOp)
    · rw [if_pos h1] at hev
      exact absurd hev (by simp)
    · rw [if_neg h1] at hev
      by_cases h2 : |s1 - stampOp| < 1/10
      · rw [if_neg (not_not_intro h2)] at hev
        by_cases h3 : |s2 - stampOp| < 1/10
        · exact ⟨h2, h3⟩
        · rw [if_pos h3] at hev
          exact absurd hev (by simp)
      · rw [if_pos h2] at hev
        exact absurd hev (by simp)
  refine ⟨hkey, ?_⟩
  intro hgt hev
  obtain ⟨ha, hb⟩ := hkey hev
  rcases hgt with hgt | hgt
  · linarith
  · linarith

/-- C5 witness: a ticket stamped 0 against a cache entry stamped 1
(refreshed well after the ticket) is discarded, not evicted. -/
theorem claim_eviction_double_check_witness :
    free_cache_step [((0 : ℚ), 1)] [(1, ((1 : ℚ), 5))] 2 [(1, ((1 : ℚ), 5))]
      ≠ FreeResult.evicted :=
  (claim_eviction_double_check [((0 : ℚ), 1)] [(1, ((1 : ℚ), 5))] [(1, ((1 : ℚ), 5))]
    2 0 1 [] 1 1 5 5 rfl (by decide) (by decide)).2
    (Or.inl (by norm_num))

/-- C10 counterexample: with `cache_size = 1` and the cache already
holding key 1, an `update` of the fresh key 2 whose disk append raises
leaves the cache without any entry for key 2 (the admission-controlled
cache write was a no-op), so "the cache already holds the new value"
fails as stated. -/
theorem claim_update_order_counterexample :
    (update ((update (initState [] 100 1) 0 0 0 1 5 true).1) 1 1 1 2 6 false).2
      = OpStatus.ioError ∧
    memA (update ((update (initState [] 100 1) 0 0 0 1 5 true).1) 1 1 1 2 6 false).1.cache 2
      = false ∧
    lookupA
      (update ((update (initState [] 100 1) 0 0 0 1 5 true).1) 1 1 1 2 6 false).1.index 2
      = some (0, 9) := by
  refine ⟨rfl, rfl, rfl⟩

/-- C10 amended: in `update` the cache write and the index write
happen before the disk append, so when the append raises the index
already maps the key to the new (segment, offset) and the cache and
ticket queue reflect exactly the admission-controlled cache write —
which is a no-op when the cache is full and the key not resident; no
segment gains the record's bytes (at most rotation added an empty
segment), and the exception propagates with the lock still held. -/
theorem claim_update_order_amended (s : DBState) (t1 t2 t3 : ℚ) (k v : Nat)
    (hwf : WF s) :
    ∃ s1, update s t1 t2 t3 k v false = (s1, OpStatus.ioError) ∧
      lookupA s1.index k = some (s1.dbFiles.length - 1, activeTell s1) ∧
      (s1.cache, s1.hist) = cacheSet s.cacheSize s.cache s.hist k t2 v t3 ∧
      (s1.dbFiles = s.dbFiles ∨ s1.dbFiles = s.dbFiles ++ [[]]) ∧
      s1.locked = true := by
  obtain ⟨⟨hnum, hact⟩, hlock⟩ := hwf
  by_cases hrot : rotCond s
  · have hnotlt : ¬ s.numDbs < s.dbFiles.length := by omega
    simp only [update, hlock, Bool.false_eq_true, if_false, switchActiveDb]
    rw [if_pos (show rotCond { s with locked := true } from hrot)]
    rw [if_neg (show ¬ ({ s with locked := true } : DBState).numDbs
        < ({ s with locked := true } : DBState).dbFiles.length from hnotlt)]
    simp only [Bool.false_eq_true, if_false]
    refine ⟨_, rfl, ?_, rfl, Or.inr rfl, rfl⟩
    simp only
    rw [lookupA_assocSet_self]
    rfl
  · have hne : s.activeIdx ≠ none := by
      intro h
      exact hrot (Or.inl (by simp [h]))
    obtain ⟨hfno, hactive⟩ := hact.resolve_left hne
    simp only [update, hlock, Bool.false_eq_true, if_false]
    rw [if_neg (show ¬ rotCond { s with locked := true } from hrot)]
    simp only [Bool.false_eq_true, if_false]
    refine ⟨_, rfl, ?_, rfl, Or.inl rfl, rfl⟩
    simp only
    rw [lookupA_assocSet_self]
    rfl

/-- C1: round-trip and last-write-wins.  (1) After `update(k, v)` and
any trace of normally-returning operations none of which updates `k`, a
`get(k)` from the resulting (unlocked) state returns `v`, whether
served from cache or read back from the segment file.  (2) After
`update(k, v1)` then `update(k, v2)`, `get(k)` returns `v2`. -/
theorem claim_roundtrip_lww :
    (∀ (s s1 s2 : DBState) (t1 t2 t3 ta tb : ℚ) (k v d : Nat) (ops : List Op),
      WF s → update s t1 t2 t3 k v true = (s1, OpStatus.ok) →
      noUpdOf k ops → runOps s1 ops = some s2 → s2.locked = false →
      (get s2 ta tb k d).2.1 = v ∧ (get s2 ta tb k d).2.2 = OpStatus.ok) ∧
    (∀ (s sA sB : DBState) (p1 p2 p3 q1 q2 q3 ta tb : ℚ) (k v1 v2 d : Nat),
      WF s → update s p1 p2 p3 k v1 true = (sA, OpStatus.ok) →
      update sA q1 q2 q3 k v2 true = (sB, OpStatus.ok) →
      (get sB ta tb k d).2.1 = v2) := by
  have part1 : ∀ (s s1 s2 : DBState) (t1 t2 t3 ta tb : ℚ) (k v d : Nat) (ops : List Op),
      WF s → update s t1 t2 t3 k v true = (s1, OpStatus.ok) →
      noUpdOf k ops → runOps s1 ops = some s2 → s2.locked = false →
      (get s2 ta tb k d).2.1 = v ∧ (get s2 ta tb k d).2.2 = OpStatus.ok := by
    intro s s1 s2 t1 t2 t3 ta tb k v d ops hwf hupd hno hrun hl
    obtain ⟨hwf1, hg1⟩ := goodKey_update_self s s1 t1 t2 t3 k v hwf hupd
    obtain ⟨hwf02, hg2⟩ := runOps_preserve k v ops s1 s2 hwf1.1 hg1 hno hrun
    rw [get_goodKey s2 ta tb k d v ⟨hwf02, hl⟩ hg2]
    exact ⟨rfl, rfl⟩
  refine ⟨part1, ?_⟩
  intro s sA sB p1 p2 p3 q1 q2 q3 ta tb k v1 v2 d hwf h1 h2
  obtain ⟨hwfA, _⟩ := goodKey_update_self s sA p1 p2 p3 k v1 hwf h1
  exact (part1 sA sB sB q1 q2 q3 ta tb k v2 d [] hwfA h2 trivial rfl
    (goodKey_update_self sA sB q1 q2 q3 k v2 hwfA h2).1.2).1

/-- C1 witness: write key 5 ↦ 7 on a fresh engine, read it back. -/
theorem claim_roundtrip_lww_witness :
    (get (update (initState [] 100 4) 0 0 0 5 7 true).1 1 1 5 0).2.1 = 7 :=
  (claim_roundtrip_lww.1 (initState [] 100 4)
    (update (initState [] 100 4) 0 0 0 5 7 true).1
    (update (initState [] 100 4) 0 0 0 5 7 true).1
    0 0 0 1 1 5 7 0 [] (by decide) (by decide) trivial rfl (by decide)).1

/-- C3: a successful `update` stores in the index the byte offset of
the start of the record just appended (the active writer's cursor
before the append), and `get`'s disk path — seek to that offset, read
one line, deserialize — recovers exactly that record. -/
theorem claim_offset_record_start (s s1 : DBState) (t1 t2 t3 : ℚ) (k v : Nat)
    (hwf : WF s) (h : update s t1 t2 t3 k v true = (s1, OpStatus.ok)) :
    ∃ pre : List Nat,
      lookupA s1.index k = some (s1.dbFiles.length - 1, pre.length) ∧
      s1.dbFiles[s1.dbFiles.length - 1]? = some (pre ++ serialize ⟨t1, k, v⟩ ++ 10 :: []) ∧
      loads (readline ((s1.dbFiles.getD (s1.dbFiles.length - 1) []).drop pre.length))
        = some ⟨t1, k, v⟩ := by
  obtain ⟨s1', heq, hwf1, hne, hact, hrec, hoth, hcheq, hext, hcsz, hsf, hlen, hrotc⟩ :=
    update_ok_spec s t1 t2 t3 k v hwf
  rw [heq] at h
  have hss : s1' = s1 := congrArg (fun p => p.1) h
  subst hss
  obtain ⟨pre, hfile, hidx⟩ := hrec
  refine ⟨pre, hidx, hfile, ?_⟩
  have hgd : s1'.dbFiles.getD (s1'.dbFiles.length - 1) []
      = pre ++ serialize ⟨t1, k, v⟩ ++ 10 :: [] := by
    rw [List.getD_eq_getElem?_getD, hfile]
    rfl
  rw [hgd, loads_readline_drop]

/-- C3 witness: the first record of a fresh engine sits at offset 0 of
segment 0 and reads back. -/
theorem claim_offset_record_start_witness :
    ∃ pre : List Nat,
      lookupA (update (initState [] 100 4) 0 0 0 5 7 true).1.index 5 =
        some ((update (initState [] 100 4) 0 0 0 5 7 true).1.dbFiles.length - 1, pre.length) ∧
      (update (initState [] 100 4) 0 0 0 5 7 true).1.dbFiles[
          (update (initState [] 100 4) 0 0 0 5 7 true).1.dbFiles.length - 1]? =
        some (pre ++ serialize ⟨0, 5, 7⟩ ++ 10 :: []) ∧
      loads (readline (((update (initState [] 100 4) 0 0 0 5 7 true).1.dbFiles.getD
          ((update (initState [] 100 4) 0 0 0 5 7 true).1.dbFiles.length - 1) []).drop
          pre.length)) = some ⟨0, 5, 7⟩ :=
  claim_offset_record_start (initState [] 100 4) _ 0 0 0 5 7 (by decide) (by decide)

/-- C4: when the cache is at or above capacity and the key is not
resident, the cache write is a complete no-op (no entry, no ticket);
after an `update` of such a key the key is absent from the cache, yet
`get` still returns the freshly written value via the disk path. -/
theorem claim_cache_admission :
    (∀ (sz : Nat) (c : List (Nat × ℚ × Nat)) (hq : List (ℚ × Nat)) (key : Nat)
        (st : ℚ) (val : Nat) (t : ℚ),
      sz ≤ c.length → memA c key = false → cacheSet sz c hq key st val t = (c, hq)) ∧
    (∀ (s s1 : DBState) (t1 t2 t3 ta tb : ℚ) (k v d : Nat),
      WF s → s.cacheSize ≤ s.cache.length → memA s.cache k = false →
      update s t1 t2 t3 k v true = (s1, OpStatus.ok) →
      memA s1.cache k = false ∧ (get s1 ta tb k d).2.1 = v) := by
  have part1 : ∀ (sz : Nat) (c : List (Nat × ℚ × Nat)) (hq : List (ℚ × Nat)) (key : Nat)
      (st : ℚ) (val : Nat) (t : ℚ),
      sz ≤ c.length → memA c key = false → cacheSet sz c hq key st val t = (c, hq) := by
    intro sz c hq key st val t h1 h2
    unfold cacheSet
    rw [if_pos ⟨h1, h2⟩]
  refine ⟨part1, ?_⟩
  intro s s1 t1 t2 t3 ta tb k v d hwf hfull habs hupd
  obtain ⟨s1', heq, hwf1, hne, hact, hrec, hoth, hcheq, hext, hcsz, hsf, hlen, hrotc⟩ :=
    update_ok_spec s t1 t2 t3 k v hwf
  rw [heq] at hupd
  have hss : s1' = s1 := congrArg (fun p => p.1) hupd
  subst hss
  have hcache : s1'.cache = s.cache := by
    have h1 : s1'.cache = (cacheSet s.cacheSize s.cache s.hist k t2 v t3).1 :=
      congrArg (fun p => p.1) hcheq
    rw [part1 s.cacheSize s.cache s.hist k t2 v t3 hfull habs] at h1
    exact h1
  constructor
  · rw [hcache]
    exact habs
  · obtain ⟨hwfA, hgA⟩ := goodKey_update_self s s1' t1 t2 t3 k v hwf heq
    rw [get_goodKey s1' ta tb k d v hwfA hgA]

/-- C4 witness: capacity 1, resident key 1; writing fresh key 2 leaves
it out of the cache yet `get 2` returns 6 from disk. -/
theorem claim_cache_admission_witness :
    memA (update ((update (initState [] 100 1) 0 0 0 1 5 true).1) 1 1 1 2 6 true).1.cache 2
      = false ∧
    (get (update ((update (initState [] 100 1) 0 0 0 1 5 true).1) 1 1 1 2 6 true).1
      2 2 2 9).2.1 = 6 :=
  claim_cache_admission.2 ((update (initState [] 100 1) 0 0 0 1 5 true).1) _
    1 1 1 2 2 2 6 9 (by decide) (by decide) (by decide) (by decide)

/-- C6: rotation fires exactly when there is no active segment or the
active cursor exceeds `segment_max_bytes`; `_switch_active_db` fails
fatally when a file already exists at the next ordinal, otherwise
creates the empty segment at ordinal `_num_dbs` (the current count),
makes it active, closes the previous writer, and bumps the count by
one; the triggering `update`'s record lands in the new segment. -/
theorem claim_rotation :
    (∀ s : DBState, s.numDbs < s.dbFiles.length →
      switchActiveDb s = Except.error "error num_dbs") ∧
    (∀ s : DBState, s.numDbs = s.dbFiles.length →
      ∃ s', switchActiveDb s = Except.ok s' ∧
        s'.numDbs = s.numDbs + 1 ∧
        s'.dbFiles.length = s.dbFiles.length + 1 ∧
        s'.activeIdx = some s.numDbs ∧
        s'.dbFiles[s.numDbs]? = some [] ∧
        (∀ i, s.activeIdx = some i → i ∈ s'.writerClosed)) ∧
    (∀ (s s1 : DBState) (t1 t2 t3 : ℚ) (k v : Nat), WF s →
      update s t1 t2 t3 k v true = (s1, OpStatus.ok) →
      ((s1.numDbs = s.numDbs + 1 ↔ rotCond s) ∧
       (¬ rotCond s → s1.numDbs = s.numDbs ∧ s1.dbFiles.length = s.dbFiles.length) ∧
       (rotCond s →
         s1.dbFiles[s1.dbFiles.length - 1]? = some (serialize ⟨t1, k, v⟩ ++ 10 :: [])))) := by
  refine ⟨?_, ?_, ?_⟩
  · intro s h
    unfold switchActiveDb
    rw [if_pos h]
  · intro s h
    unfold switchActiveDb
    rw [if_neg (by omega)]
    refine ⟨_, rfl, rfl, by simp, by rw [h], ?_, ?_⟩
    · simp only
      rw [h, List.getElem?_concat_length]
    · intro i hi
      simp only [hi]
      simp
  · intro s s1 t1 t2 t3 k v hwf h
    obtain ⟨s1', heq, hwf1, hne, hact, hrec, hoth, hcheq, hext, hcsz, hsf, hlen, hrotc⟩ :=
      update_ok_spec s t1 t2 t3 k v hwf
    rw [heq] at h
    have hss : s1' = s1 := congrArg (fun p => p.1) h
    subst hss
    have hnum1 : s1'.numDbs = s1'.dbFiles.length := hwf1.1.1
    have hnum : s.numDbs = s.dbFiles.length := hwf.1.1
    refine ⟨⟨?_, ?_⟩, ?_, hrotc⟩
    · intro hup
      by_contra hc
      rw [if_neg hc] at hlen
      omega
    · intro hr
      rw [if_pos hr] at hlen
      omega
    · intro hr
      rw [if_neg hr] at hlen
      omega

/-- C6 witness: rotating an engine with one on-disk segment and
consistent bookkeeping creates segment 1. -/
theorem claim_rotation_witness :
    ∃ s', switchActiveDb (initState [[]] 100 4) = Except.ok s' ∧
      s'.numDbs = (initState [[]] 100 4).numDbs + 1 ∧
      s'.dbFiles.length = (initState [[]] 100 4).dbFiles.length + 1 ∧
      s'.activeIdx = some (initState [[]] 100 4).numDbs ∧
      s'.dbFiles[(initState [[]] 100 4).numDbs]? = some [] ∧
      (∀ i, (initState [[]] 100 4).activeIdx = some i → i ∈ s'.writerClosed) :=
  claim_rotation.2.1 (initState [[]] 100 4) (by decide)

/-- C7: the startup scan's renumbering loop, fed the ordinal-sorted
file listing, closes all gaps — the m-th listed file ends up at ordinal
`idx + m` with its contents intact — and fails fatally when a rename
target already exists; in particular on-disk ordinals {0, 2} become
{0, 1} with contents preserved byte-for-byte and exactly 2 segments. -/
theorem claim_startup_repair :
    (∀ (l fs : List (Nat × List Nat)) (idx : Nat),
      (l.map Prod.fst).Pairwise (· < ·) →
      (∀ p ∈ l, idx ≤ p.1) →
      (∀ p ∈ l, lookupA fs p.1 = some p.2) →
      (∀ j, idx ≤ j → (∀ p ∈ l, p.1 ≠ j) → lookupA fs j = none) →
      ∃ fs2, repairAux fs (l.map Prod.fst) idx = .ok fs2 ∧
        (∀ m (hm : m < l.length), lookupA fs2 (idx + m) = some (l.get ⟨m, hm⟩).2) ∧
        (∀ j, j < idx → lookupA fs2 j = lookupA fs j)) ∧
    (∀ (fs : List (Nat × List Nat)) (o : Nat) (os : List Nat) (idx : Nat) (b : List Nat),
      o ≠ idx → lookupA fs idx = some b → repairAux fs (o :: os) idx = .error ()) ∧
    (∀ a b : List Nat, dbInit [(0, a), (2, b)] = .ok [(1, b), (0, a)] ∧
      lookupA [(1, b), (0, a)] 0 = some a ∧ lookupA [(1, b), (0, a)] 1 = some b ∧
      ([(1, b), (0, a)] : List (Nat × List Nat)).length = 2) := by
  refine ⟨fun l fs idx => repairAux_sorted l fs idx, ?_, ?_⟩
  · intro fs o os idx b ho hl
    rw [repairAux, if_neg ho, hl]
    rfl
  · intro a b
    exact ⟨rfl, rfl, rfl, rfl⟩

/-- C7 witness: a rename whose target ordinal already exists aborts. -/
theorem claim_startup_repair_witness :
    repairAux [(5, [7]), (0, [1])] [5] 0 = Except.error () :=
  claim_startup_repair.2.1 [(5, [7]), (0, [1])] 5 [] 0 [1] (by decide) (by decide)

/-- C10 witness: on a fresh engine a failed append still leaves the
index pointing at the would-be record and the cache written. -/
theorem claim_update_order_amended_witness :
    ∃ s1, update (initState [] 100 4) 0 0 0 5 7 false = (s1, OpStatus.ioError) ∧
      lookupA s1.index 5 = some (s1.dbFiles.length - 1, activeTell s1) ∧
      (s1.cache, s1.hist) = cacheSet (initState [] 100 4).cacheSize
        (initState [] 100 4).cache (initState [] 100 4).hist 5 0 7 0 ∧
      (s1.dbFiles = (initState [] 100 4).dbFiles ∨
        s1.dbFiles = (initState [] 100 4).dbFiles ++ [[]]) ∧
      s1.locked = true :=
  claim_update_order_amended (initState [] 100 4) 0 0 0 5 7 (by decide)

end BigDick
